import Mathlib

/-!
Verification of the archive-extraction and directory-normalization subsystem
of the `setup` CLI installer (`util/unpack.go`, `util/common.go`).

The Go code is shallowly embedded: the filesystem is an explicit tree value
threaded through each operation, a Go function returning `error` becomes a
function returning the new filesystem state paired with `Option GoErr`
(`none` models a `nil` error), and the archive contents (the entry stream
produced by the tar/zip readers) are given as explicit lists of entries.
-/

namespace Setup

/-- A filesystem path, as a list of name segments below the root directory. -/
abbrev Path := List String

/-- A node of the on-disk tree: a regular file (permission mode, byte
content) or a directory (permission mode, named children).  Names inside a
directory are unique; the operations below preserve that. -/
inductive FSNode where
  | file (mode : Nat) (content : List Nat)
  | dir  (mode : Nat) (children : List (String × FSNode))
deriving Repr

/-- Errors surfaced by the modelled OS calls (the `error` values the Go code
can receive from `os.*` / `io.*`). -/
inductive GoErr where
  | notExist  -- ENOENT
  | notDir    -- ENOTDIR
  | isDir     -- EISDIR
  | notEmpty  -- ENOTEMPTY
  | invalid   -- EINVAL
deriving DecidableEq, Repr

def FSNode.isDir : FSNode → Bool
  | .dir _ _ => true
  | .file _ _ => false

/-- Replace the binding of `s` in a child list (first occurrence), or append
it when absent. -/
def setChild : List (String × FSNode) → String → FSNode → List (String × FSNode)
  | [], s, n => [(s, n)]
  | (t, c) :: cs, s, n => if t = s then (s, n) :: cs else (t, c) :: setChild cs s n

/-- Drop the binding of `s` from a child list (first occurrence). -/
def removeChild : List (String × FSNode) → String → List (String × FSNode)
  | [], _ => []
  | (t, c) :: cs, s => if t = s then cs else (t, c) :: removeChild cs s

/-- Look a name up in a child list (first occurrence). -/
def findChild : List (String × FSNode) → String → Option FSNode
  | [], _ => none
  | (t, c) :: cs, s => if t = s then some c else findChild cs s

/-- Follow a path down the tree. -/
def lookup : FSNode → Path → Option FSNode
  | n, [] => some n
  | .file _ _, _ :: _ => none
  | .dir _ cs, s :: p =>
    match findChild cs s with
    | some c => lookup c p
    | none => none

/-- Kernel-style resolution of a relative slash-separated name against a base
directory: empty and `.` segments are skipped and `..` moves to the parent
(at the root, `..` stays at the root, as on Linux).  This is exactly what
`filepath.Join`/`filepath.Clean` compute for `Unzip`, and what the kernel
path walk computes for the concatenated paths `ExtractTarGz` hands to
`os.Create`/`os.MkdirAll` (the walks in this development only traverse
existing directories). -/
def resolveSegs (base : Path) (segs : List String) : Path :=
  segs.foldl
    (fun acc s =>
      if s = "" ∨ s = "." then acc
      else if s = ".." then acc.dropLast
      else acc ++ [s])
    base

/-- `os.MkdirAll(path, perm)`: create every missing directory along `path`
with mode `perm`; succeed without change on directories that already exist;
fail with ENOTDIR when a component is a regular file. -/
def mkdirAll : FSNode → Path → Nat → Except GoErr FSNode
  | n@(.dir _ _), [], _ => .ok n
  | .file _ _, [], _ => .error .notDir
  | .file _ _, _ :: _, _ => .error .notDir
  | .dir m cs, s :: p, perm =>
    match findChild cs s with
    | some c =>
      match mkdirAll c p perm with
      | .ok c2 => .ok (.dir m (setChild cs s c2))
      | .error e => .error e
    | none =>
      match mkdirAll (.dir perm []) p perm with
      | .ok c2 => .ok (.dir m (setChild cs s c2))
      | .error e => .error e

/-- `os.OpenFile(path, O_WRONLY|O_CREATE|O_TRUNC, perm)` followed by
`io.Copy` of `content` (this is `os.Create` + `io.Copy` when `perm` is 0666):
requires every ancestor of `path` to exist and be a directory; truncating an
existing file keeps its mode; a directory at `path` is EISDIR. -/
def createTruncWrite : FSNode → Path → Nat → List Nat → Except GoErr FSNode
  | _, [], _, _ => .error .isDir
  | .file _ _, _ :: _, _, _ => .error .notDir
  | .dir m cs, [s], perm, content =>
    match findChild cs s with
    | some (.dir _ _) => .error .isDir
    | some (.file fm _) => .ok (.dir m (setChild cs s (.file fm content)))
    | none => .ok (.dir m (setChild cs s (.file perm content)))
  | .dir m cs, s :: p :: ps, perm, content =>
    match findChild cs s with
    | some c =>
      match createTruncWrite c (p :: ps) perm content with
      | .ok c2 => .ok (.dir m (setChild cs s c2))
      | .error e => .error e
    | none => .error .notExist

/-- `ioutil.ReadDir(path)`: the immediate children of the directory at
`path`.  (The real call sorts by name; `moveSingleDirToParent` only ever
uses the length of the result and, when that length is 1, its sole element,
so the order is immaterial here.) -/
def readDir (fs : FSNode) (path : Path) : Except GoErr (List (String × FSNode)) :=
  match lookup fs path with
  | some (.dir _ cs) => .ok cs
  | some (.file _ _) => .error .notDir
  | none => .error .notExist

/-- `os.Remove(path)`: remove a regular file or an empty directory. -/
def removePath : FSNode → Path → Except GoErr FSNode
  | _, [] => .error .invalid
  | .file _ _, _ :: _ => .error .notDir
  | .dir m cs, [s] =>
    match findChild cs s with
    | none => .error .notExist
    | some (.dir _ (_ :: _)) => .error .notEmpty
    | some _ => .ok (.dir m (removeChild cs s))
  | .dir m cs, s :: p :: ps =>
    match findChild cs s with
    | some c =>
      match removePath c (p :: ps) with
      | .ok c2 => .ok (.dir m (setChild cs s c2))
      | .error e => .error e
    | none => .error .notExist

/-- Detach the subtree at `path` (internal helper for `renamePath`). -/
def delSubtree : FSNode → Path → FSNode
  | n, [] => n
  | n@(.file _ _), _ :: _ => n
  | .dir m cs, [s] => .dir m (removeChild cs s)
  | .dir m cs, s :: p :: ps =>
    match findChild cs s with
    | some c => .dir m (setChild cs s (delSubtree c (p :: ps)))
    | none => .dir m cs

/-- Attach node `n` at `path`, requiring the parent to exist and be a
directory (internal helper for `renamePath`). -/
def putSubtree : FSNode → Path → FSNode → Except GoErr FSNode
  | _, [], _ => .error .invalid
  | .file _ _, _ :: _, _ => .error .notDir
  | .dir m cs, [s], n => .ok (.dir m (setChild cs s n))
  | .dir m cs, s :: p :: ps, n =>
    match findChild cs s with
    | some c =>
      match putSubtree c (p :: ps) n with
      | .ok c2 => .ok (.dir m (setChild cs s c2))
      | .error e => .error e
    | none => .error .notExist

/-- Replace the node found at `path` by `n` (a no-op when `path` is absent);
specification-side helper used to describe the results of the operations
above. -/
def updateAt : FSNode → Path → FSNode → FSNode
  | _, [], n => n
  | f@(.file _ _), _ :: _, _ => f
  | .dir m cs, s :: p, n =>
    match findChild cs s with
    | some c => .dir m (setChild cs s (updateAt c p n))
    | none => .dir m cs

/-- `os.Rename(old, new)` (Linux semantics): the source must exist; an
existing destination may be replaced only if it is a file when the source is
a file, or an empty directory when the source is a directory; the
destination parent must exist after the source subtree is detached (a
destination inside the source therefore fails, as EINVAL does). -/
def renamePath (fs : FSNode) (old new : Path) : Except GoErr FSNode :=
  match lookup fs old with
  | none => .error .notExist
  | some n =>
    match lookup fs new with
    | some (.dir _ (_ :: _)) => .error .notEmpty
    | some (.dir _ []) =>
      if n.isDir then putSubtree (delSubtree fs old) new n else .error .isDir
    | some (.file _ _) =>
      if n.isDir then .error .notDir else putSubtree (delSubtree fs old) new n
    | none => putSubtree (delSubtree fs old) new n

/-! ## The archive entry streams -/

/-- The `Typeflag` values `ExtractTarGz` distinguishes: `tar.TypeDir`,
`tar.TypeReg`, and everything else (its `default` branch). -/
inductive TarType where
  | dir
  | reg
  | other
deriving DecidableEq, Repr

/-- One tar header together with the bytes that follow it, as produced by
`tarReader.Next()` / read through `tarReader`.  `name` is `header.Name`
split at the slashes. -/
structure TarHeader where
  typeflag : TarType
  name : List String
  mode : Nat
  content : List Nat
deriving Repr

/-- One member of a zip archive, as exposed by `zip.OpenReader`: `name` is
`f.Name` split at the slashes, `isDir` is `f.FileInfo().IsDir()`, `mode` is
`f.Mode()` and `content` the bytes `f.Open()` yields. -/
structure ZipEntry where
  name : List String
  isDir : Bool
  mode : Nat
  content : List Nat
deriving Repr

/-! ## unpack.go -/

/-- The post-extraction normalization step of `unpack.go`
(`moveSingleDirToParent`): list the children of `extractDir`; when there is
exactly one and it is a directory, hoist it — make `parent/tmp`, move the
child to `parent/tmp/<base extractDir>`, remove the now-empty `extractDir`,
rename the temporary back onto `extractDir`, remove `parent/tmp`.  Each OS
call mirrors one call in the Go function; the returned `Option GoErr` is
the function result. -/
def moveSingleDirToParent (extractDir : Path) (fs : FSNode) : FSNode × Option GoErr :=
  match readDir fs extractDir with
  | .error e => (fs, some e)
  | .ok files =>
    match files with
    | [(childName, .dir _ _)] =>
      let parentDirPath := extractDir.dropLast
      let extractDirName := extractDir.getLastD ""
      let tempPath := parentDirPath ++ ["tmp", extractDirName]
      let oldPath := extractDir ++ [childName]
      match mkdirAll fs (parentDirPath ++ ["tmp"]) 0o755 with
      | .error e => (fs, some e)
      | .ok fs1 =>
        match renamePath fs1 oldPath tempPath with
        | .error e => (fs1, some e)
        | .ok fs2 =>
          match removePath fs2 (parentDirPath ++ [extractDirName]) with
          | .error e => (fs2, some e)
          | .ok fs3 =>
            match renamePath fs3 tempPath extractDir with
            | .error e => (fs3, some e)
            | .ok fs4 =>
              match removePath fs4 (parentDirPath ++ ["tmp"]) with
              | .error e => (fs4, some e)
              | .ok fs5 => (fs5, none)
    | _ => (fs, none)

/-- The entry loop of `ExtractTarGz`.  A `TypeDir` header runs
`os.MkdirAll(extractDir+"/"+header.Name, 0755)` and on failure only prints
and keeps going; a `TypeReg` header runs `os.Create` + `io.Copy` and on
failure returns the error; any other type is printed and skipped.  The list
ending models `io.EOF` from `tarReader.Next()`. -/
def extractTarEntries : List TarHeader → Path → FSNode → FSNode × Option GoErr
  | [], _, fs => (fs, none)
  | h :: rest, extractDir, fs =>
    match h.typeflag with
    | .dir =>
      match mkdirAll fs (resolveSegs extractDir h.name) 0o755 with
      | .ok fs1 => extractTarEntries rest extractDir fs1
      | .error _ => extractTarEntries rest extractDir fs
    | .reg =>
      match createTruncWrite fs (resolveSegs extractDir h.name) 0o666 h.content with
      | .ok fs1 => extractTarEntries rest extractDir fs1
      | .error e => (fs, some e)
    | .other => extractTarEntries rest extractDir fs

/-- `ExtractTarGz(filename, extractDir)`, from the point where the gzip/tar
readers are wired (the archive is given as its decoded entry stream): run
the entry loop, and on its success finish with `moveSingleDirToParent`. -/
def extractTarGz (archive : List TarHeader) (extractDir : Path) (fs : FSNode) :
    FSNode × Option GoErr :=
  match extractTarEntries archive extractDir fs with
  | (fs1, none) => moveSingleDirToParent extractDir fs1
  | (fs1, some e) => (fs1, some e)

/-- The string `Unzip` computes as `fdir`: everything of `fpath` up to its
last separator (`fpath[:strings.LastIndex(fpath, "/")]`).  When `fpath`
lies directly under the filesystem root (one segment, or the root itself)
that prefix is the empty string, which is not a path at all; `none` models
it.  Otherwise the prefix names the parent directory `fpath.dropLast`. -/
def zipFdir (fpath : Path) : Option Path :=
  if fpath.dropLast = [] then none else some fpath.dropLast

/-- `os.MkdirAll` applied to the computed `fdir` string: the empty string
(`none`) always fails with ENOENT before touching the filesystem; a real
path behaves as `mkdirAll`. -/
def mkdirAllFdir (fs : FSNode) (fdir : Option Path) (perm : Nat) :
    Except GoErr FSNode :=
  match fdir with
  | none => .error .notExist
  | some path => mkdirAll fs path perm

/-- The entry loop of `Unzip`.  For each member: `fpath :=
filepath.Join(extractDir, f.Name)`; a directory member runs
`os.MkdirAll(fpath, f.Mode())` and returns on failure; a file member first
runs `os.MkdirAll(fdir, f.Mode())` on `fdir`, everything of `fpath` up to
its last separator (the empty string — which `MkdirAll` rejects with
ENOENT — when `fpath` sits directly under the root), then
`os.OpenFile(fpath, O_WRONLY|O_CREATE|O_TRUNC, f.Mode())` and `io.Copy`,
returning the first error. -/
def extractZipEntries : List ZipEntry → Path → FSNode → FSNode × Option GoErr
  | [], _, fs => (fs, none)
  | f :: rest, extractDir, fs =>
    let fpath := resolveSegs extractDir f.name
    if f.isDir then
      match mkdirAll fs fpath f.mode with
      | .ok fs1 => extractZipEntries rest extractDir fs1
      | .error e => (fs, some e)
    else
      match mkdirAllFdir fs (zipFdir fpath) f.mode with
      | .error e => (fs, some e)
      | .ok fs1 =>
        match createTruncWrite fs1 fpath f.mode f.content with
        | .error e => (fs1, some e)
        | .ok fs2 => extractZipEntries rest extractDir fs2

/-- `Unzip(filename, extractDir)`, from the point where the zip reader is
open: run the member loop, and on its success finish with
`moveSingleDirToParent`. -/
def unzip (archive : List ZipEntry) (extractDir : Path) (fs : FSNode) :
    FSNode × Option GoErr :=
  match extractZipEntries archive extractDir fs with
  | (fs1, none) => moveSingleDirToParent extractDir fs1
  | (fs1, some e) => (fs1, some e)

/-! ## common.go -/

/-- The error of an `os.Stat` failure, as tested by `os.IsNotExist`. -/
inductive StatErr where
  | notExist
  | permission
  | other
deriving DecidableEq, Repr

/-- The `os.FileInfo` a successful `os.Stat` returns, reduced to the one
field `FileExists` reads. -/
structure FileInfo where
  isDir : Bool
deriving DecidableEq, Repr

/-- `FileExists(fileName)` as a function of the outcome of its one
`os.Stat` call (`.error e` models `stat == nil, err == e`): return `false`
when `os.IsNotExist(err)`, otherwise evaluate `!stat.IsDir()`.  When `err`
is neither nil nor a not-exist error, `stat` is nil and `stat.IsDir()`
dereferences a nil pointer: that crash is modelled as `none`. -/
def fileExists : Except StatErr FileInfo → Option Bool
  | .error .notExist => some false
  | .error _ => none
  | .ok stat => some (!stat.isDir)

/-- `os.Stat` against the modelled filesystem: succeeds on an existing path
and fails with a not-exist error otherwise (the model has no permission
bits to refuse a traversal with). -/
def osStat (fs : FSNode) (path : Path) : Except StatErr FileInfo :=
  match lookup fs path with
  | some n => .ok ⟨n.isDir⟩
  | none => .error .notExist

/-- A comparable Go value (a dynamic type for which `==` on `interface{}`
is defined), as stored in the slices `HasElement` is called on. -/
inductive GoBase where
  | str (s : String)
  | int (n : Int)
deriving DecidableEq, Repr

/-- A Go `interface{}` argument of `HasElement`: either a slice
(`reflect.Slice` kind) or some non-slice value. -/
inductive GoVal where
  | base (b : GoBase)
  | slice (xs : List GoBase)
deriving DecidableEq, Repr

/-- The index loop of `HasElement`: the first match returns `(true, i)`;
falling off the end returns `(false, 0)`. -/
def hasElementLoop : List GoBase → GoBase → Nat → Bool × Nat
  | [], _, _ => (false, 0)
  | x :: xs, e, i => if x = e then (true, i) else hasElementLoop xs e (i + 1)

/-- `HasElement(s, elem)`: when `s` is a slice, scan it for `elem` from
index 0; any non-slice argument falls through to `(false, 0)`. -/
def hasElement : GoVal → GoBase → Bool × Nat
  | .slice xs, e => hasElementLoop xs e 0
  | .base _, _ => (false, 0)

/-! ## Child-list lemmas -/

theorem findChild_setChild_self (cs : List (String × FSNode)) (s : String) (n : FSNode) :
    findChild (setChild cs s n) s = some n := by
  induction cs with
  | nil => simp [setChild, findChild]
  | cons hd tl ih =>
    obtain ⟨t, c⟩ := hd
    by_cases h : t = s <;> simp [setChild, findChild, h, ih]

theorem findChild_setChild_ne (cs : List (String × FSNode)) (s t : String) (n : FSNode)
    (h : t ≠ s) : findChild (setChild cs s n) t = findChild cs t := by
  induction cs with
  | nil => simp [setChild, findChild, Ne.symm h]
  | cons hd tl ih =>
    obtain ⟨u, c⟩ := hd
    by_cases hu : u = s
    · subst hu
      simp [setChild, findChild, h, Ne.symm h]
    · simp [setChild, findChild, hu, ih]

theorem findChild_removeChild_ne (cs : List (String × FSNode)) (s t : String)
    (h : t ≠ s) : findChild (removeChild cs s) t = findChild cs t := by
  induction cs with
  | nil => simp [removeChild]
  | cons hd tl ih =>
    obtain ⟨u, c⟩ := hd
    by_cases hu : u = s
    · subst hu
      simp [removeChild, findChild, Ne.symm h]
    · simp [removeChild, findChild, hu, ih]

theorem findChild_of_not_mem_keys (cs : List (String × FSNode)) (s : String)
    (h : s ∉ cs.map Prod.fst) : findChild cs s = none := by
  induction cs with
  | nil => simp [findChild]
  | cons hd tl ih =>
    obtain ⟨u, c⟩ := hd
    simp only [List.map_cons, List.mem_cons, not_or] at h
    simp [findChild, Ne.symm h.1, ih h.2]

theorem findChild_removeChild_self (cs : List (String × FSNode)) (s : String)
    (hnd : (cs.map Prod.fst).Nodup) : findChild (removeChild cs s) s = none := by
  induction cs with
  | nil => simp [removeChild, findChild]
  | cons hd tl ih =>
    obtain ⟨u, c⟩ := hd
    simp only [List.map_cons, List.nodup_cons] at hnd
    by_cases hu : u = s
    · subst hu
      simp only [removeChild, if_pos rfl]
      exact findChild_of_not_mem_keys tl u hnd.1
    · simp [removeChild, findChild, hu, ih hnd.2]

theorem setChild_of_absent (cs : List (String × FSNode)) (s : String) (n : FSNode)
    (h : findChild cs s = none) : setChild cs s n = cs ++ [(s, n)] := by
  induction cs with
  | nil => simp [setChild]
  | cons hd tl ih =>
    obtain ⟨t, c⟩ := hd
    by_cases ht : t = s
    · simp [findChild, ht] at h
    · simp only [findChild, if_neg ht] at h
      simp [setChild, ht, ih h]

theorem setChild_self_of_found (cs : List (String × FSNode)) (s : String) (c : FSNode)
    (h : findChild cs s = some c) : setChild cs s c = cs := by
  induction cs with
  | nil => simp [findChild] at h
  | cons hd tl ih =>
    obtain ⟨t, c2⟩ := hd
    by_cases ht : t = s
    · subst ht
      have h2 : c = c2 := by
        have := h
        simp only [findChild, if_pos rfl] at this
        exact (Option.some.injEq _ _ ▸ this).symm
      simp [setChild, h2]
    · simp only [findChild, if_neg ht] at h
      simp [setChild, ht, ih h]

theorem setChild_append_of_found (cs ds : List (String × FSNode)) (s : String)
    (n c : FSNode) (h : findChild cs s = some c) :
    setChild (cs ++ ds) s n = setChild cs s n ++ ds := by
  induction cs with
  | nil => simp [findChild] at h
  | cons hd tl ih =>
    obtain ⟨t, c2⟩ := hd
    by_cases ht : t = s
    · simp [setChild, ht]
    · simp only [findChild, if_neg ht] at h
      simp [setChild, ht, ih h]

theorem setChild_append_of_absent (cs ds : List (String × FSNode)) (s : String)
    (n : FSNode) (h : findChild cs s = none) :
    setChild (cs ++ ds) s n = cs ++ setChild ds s n := by
  induction cs with
  | nil => simp
  | cons hd tl ih =>
    obtain ⟨t, c2⟩ := hd
    by_cases ht : t = s
    · simp [findChild, ht] at h
    · simp only [findChild, if_neg ht] at h
      simp [setChild, ht, ih h]

theorem removeChild_append_of_found (cs ds : List (String × FSNode)) (s : String)
    (c : FSNode) (h : findChild cs s = some c) :
    removeChild (cs ++ ds) s = removeChild cs s ++ ds := by
  induction cs with
  | nil => simp [findChild] at h
  | cons hd tl ih =>
    obtain ⟨t, c2⟩ := hd
    by_cases ht : t = s
    · simp [removeChild, ht]
    · simp only [findChild, if_neg ht] at h
      simp [removeChild, ht, ih h]

theorem removeChild_append_of_absent (cs ds : List (String × FSNode)) (s : String)
    (h : findChild cs s = none) :
    removeChild (cs ++ ds) s = cs ++ removeChild ds s := by
  induction cs with
  | nil => simp
  | cons hd tl ih =>
    obtain ⟨t, c2⟩ := hd
    by_cases ht : t = s
    · simp [findChild, ht] at h
    · simp only [findChild, if_neg ht] at h
      simp [removeChild, ht, ih h]

theorem findChild_append_of_found (cs ds : List (String × FSNode)) (s : String)
    (c : FSNode) (h : findChild cs s = some c) :
    findChild (cs ++ ds) s = some c := by
  induction cs with
  | nil => simp [findChild] at h
  | cons hd tl ih =>
    obtain ⟨t, c2⟩ := hd
    by_cases ht : t = s
    · simpa [findChild, ht] using h
    · simp only [findChild, if_neg ht] at h ⊢
      exact ih h

theorem findChild_append_of_absent (cs ds : List (String × FSNode)) (s : String)
    (h : findChild cs s = none) :
    findChild (cs ++ ds) s = findChild ds s := by
  induction cs with
  | nil => simp
  | cons hd tl ih =>
    obtain ⟨t, c2⟩ := hd
    by_cases ht : t = s
    · simp [findChild, ht] at h
    · simp only [findChild, if_neg ht] at h ⊢
      exact ih h

theorem setChild_keys_of_found (cs : List (String × FSNode)) (s : String)
    (n c : FSNode) (h : findChild cs s = some c) :
    (setChild cs s n).map Prod.fst = cs.map Prod.fst := by
  induction cs with
  | nil => simp [findChild] at h
  | cons hd tl ih =>
    obtain ⟨t, c2⟩ := hd
    by_cases ht : t = s
    · simp [setChild, ht]
    · simp only [findChild, if_neg ht] at h
      simp [setChild, ht, ih h]

/-! ## Tree lemmas -/

theorem setChild_setChild (cs : List (String × FSNode)) (s : String) (v w : FSNode) :
    setChild (setChild cs s v) s w = setChild cs s w := by
  induction cs with
  | nil => simp [setChild]
  | cons hd tl ih =>
    obtain ⟨t, c⟩ := hd
    by_cases ht : t = s
    · simp [setChild, ht]
    · simp [setChild, ht, ih]

theorem lookup_append (fs : FSNode) (p q : Path) :
    lookup fs (p ++ q) = (lookup fs p).bind (fun n => lookup n q) := by
  induction p generalizing fs with
  | nil => simp [lookup]
  | cons s p ih =>
    cases fs with
    | file m c => simp [lookup]
    | dir m cs =>
      simp only [List.cons_append, lookup]
      cases findChild cs s with
      | some c => exact ih c
      | none => simp

theorem updateAt_updateAt (fs : FSNode) (p : Path) (a b : FSNode) :
    updateAt (updateAt fs p a) p b = updateAt fs p b := by
  induction p generalizing fs with
  | nil => simp [updateAt]
  | cons s p ih =>
    cases fs with
    | file m c => simp [updateAt]
    | dir m cs =>
      cases h : findChild cs s with
      | some c =>
        simp only [updateAt, h, findChild_setChild_self]
        rw [setChild_setChild, ih]
      | none => simp [updateAt, h]

theorem lookup_updateAt_self (fs : FSNode) (p : Path) (u n : FSNode)
    (h : lookup fs p = some u) : lookup (updateAt fs p n) p = some n := by
  induction p generalizing fs with
  | nil => simp [lookup, updateAt]
  | cons s p ih =>
    cases fs with
    | file m c => simp [lookup] at h
    | dir m cs =>
      simp only [lookup] at h
      cases hc : findChild cs s with
      | none => simp [hc] at h
      | some c =>
        simp only [hc] at h
        simp [updateAt, hc, lookup, findChild_setChild_self, ih c h]

theorem mkdirAll_localize (p : Path) (fs sub : FSNode) (q : Path) (perm : Nat)
    (h : lookup fs p = some sub) :
    mkdirAll fs (p ++ q) perm = Except.map (updateAt fs p) (mkdirAll sub q perm) := by
  induction p generalizing fs with
  | nil =>
    simp only [lookup] at h
    cases h
    simp only [List.nil_append]
    cases mkdirAll sub q perm <;> simp [Except.map, updateAt]
  | cons s p ih =>
    cases fs with
    | file m c => simp [lookup] at h
    | dir m cs =>
      simp only [lookup] at h
      cases hc : findChild cs s with
      | none => simp [hc] at h
      | some c =>
        simp only [hc] at h
        rw [List.cons_append]
        simp only [mkdirAll, hc]
        rw [ih c h]
        cases mkdirAll sub q perm <;> simp [Except.map, updateAt, hc]

theorem createTruncWrite_localize (p : Path) (fs sub : FSNode) (q : Path)
    (perm : Nat) (content : List Nat) (hq : q ≠ [])
    (h : lookup fs p = some sub) :
    createTruncWrite fs (p ++ q) perm content =
      Except.map (updateAt fs p) (createTruncWrite sub q perm content) := by
  induction p generalizing fs with
  | nil =>
    simp only [lookup] at h
    cases h
    simp only [List.nil_append]
    cases createTruncWrite sub q perm content <;> simp [Except.map, updateAt]
  | cons s p ih =>
    cases fs with
    | file m c => simp [lookup] at h
    | dir m cs =>
      simp only [lookup] at h
      cases hc : findChild cs s with
      | none => simp [hc] at h
      | some c =>
        simp only [hc] at h
        obtain ⟨x, xs, hx⟩ : ∃ x xs, p ++ q = x :: xs := by
          cases hpq2 : p ++ q with
          | nil => exact absurd (List.append_eq_nil.mp hpq2).2 hq
          | cons x xs => exact ⟨x, xs, rfl⟩
        rw [List.cons_append, hx]
        simp only [createTruncWrite, hc]
        rw [← hx, ih c h]
        cases createTruncWrite sub q perm content <;> simp [Except.map, updateAt, hc]

theorem removePath_localize (p : Path) (fs sub : FSNode) (q : Path) (hq : q ≠ [])
    (h : lookup fs p = some sub) :
    removePath fs (p ++ q) = Except.map (updateAt fs p) (removePath sub q) := by
  induction p generalizing fs with
  | nil =>
    simp only [lookup] at h
    cases h
    simp only [List.nil_append]
    cases removePath sub q <;> simp [Except.map, updateAt]
  | cons s p ih =>
    cases fs with
    | file m c => simp [lookup] at h
    | dir m cs =>
      simp only [lookup] at h
      cases hc : findChild cs s with
      | none => simp [hc] at h
      | some c =>
        simp only [hc] at h
        obtain ⟨x, xs, hx⟩ : ∃ x xs, p ++ q = x :: xs := by
          cases hpq2 : p ++ q with
          | nil => exact absurd (List.append_eq_nil.mp hpq2).2 hq
          | cons x xs => exact ⟨x, xs, rfl⟩
        rw [List.cons_append, hx]
        simp only [removePath, hc]
        rw [← hx, ih c h]
        cases removePath sub q <;> simp [Except.map, updateAt, hc]

theorem putSubtree_localize (p : Path) (fs sub : FSNode) (q : Path) (n : FSNode)
    (hq : q ≠ []) (h : lookup fs p = some sub) :
    putSubtree fs (p ++ q) n = Except.map (updateAt fs p) (putSubtree sub q n) := by
  induction p generalizing fs with
  | nil =>
    simp only [lookup] at h
    cases h
    simp only [List.nil_append]
    cases putSubtree sub q n <;> simp [Except.map, updateAt]
  | cons s p ih =>
    cases fs with
    | file m c => simp [lookup] at h
    | dir m cs =>
      simp only [lookup] at h
      cases hc : findChild cs s with
      | none => simp [hc] at h
      | some c =>
        simp only [hc] at h
        obtain ⟨x, xs, hx⟩ : ∃ x xs, p ++ q = x :: xs := by
          cases hpq2 : p ++ q with
          | nil => exact absurd (List.append_eq_nil.mp hpq2).2 hq
          | cons x xs => exact ⟨x, xs, rfl⟩
        rw [List.cons_append, hx]
        simp only [putSubtree, hc]
        rw [← hx, ih c h]
        cases putSubtree sub q n <;> simp [Except.map, updateAt, hc]

theorem delSubtree_localize (p : Path) (fs sub : FSNode) (q : Path) (hq : q ≠ [])
    (h : lookup fs p = some sub) :
    delSubtree fs (p ++ q) = updateAt fs p (delSubtree sub q) := by
  induction p generalizing fs with
  | nil =>
    simp only [lookup] at h
    cases h
    simp [updateAt]
  | cons s p ih =>
    cases fs with
    | file m c => simp [lookup] at h
    | dir m cs =>
      simp only [lookup] at h
      cases hc : findChild cs s with
      | none => simp [hc] at h
      | some c =>
        simp only [hc] at h
        obtain ⟨x, xs, hx⟩ : ∃ x xs, p ++ q = x :: xs := by
          cases hpq2 : p ++ q with
          | nil => exact absurd (List.append_eq_nil.mp hpq2).2 hq
          | cons x xs => exact ⟨x, xs, rfl⟩
        rw [List.cons_append, hx]
        simp only [delSubtree, hc]
        rw [← hx, ih c h]
        simp [updateAt, hc]

theorem readDir_localize (p : Path) (fs sub : FSNode) (q : Path)
    (h : lookup fs p = some sub) : readDir fs (p ++ q) = readDir sub q := by
  simp [readDir, lookup_append, h]

theorem renamePath_localize (p : Path) (fs sub : FSNode) (q1 q2 : Path)
    (hq1 : q1 ≠ []) (hq2 : q2 ≠ []) (h : lookup fs p = some sub) :
    renamePath fs (p ++ q1) (p ++ q2) =
      Except.map (updateAt fs p) (renamePath sub q1 q2) := by
  have h1 : lookup fs (p ++ q1) = lookup sub q1 := by
    simp [lookup_append, h]
  have h2 : lookup fs (p ++ q2) = lookup sub q2 := by
    simp [lookup_append, h]
  have hdel : lookup (delSubtree fs (p ++ q1)) p = some (delSubtree sub q1) := by
    rw [delSubtree_localize p fs sub q1 hq1 h]
    exact lookup_updateAt_self fs p sub _ h
  have hput : ∀ n, putSubtree (delSubtree fs (p ++ q1)) (p ++ q2) n =
      Except.map (updateAt fs p) (putSubtree (delSubtree sub q1) q2 n) := by
    intro n
    rw [putSubtree_localize p _ _ q2 n hq2 hdel, delSubtree_localize p fs sub q1 hq1 h]
    cases putSubtree (delSubtree sub q1) q2 n <;> simp [Except.map, updateAt_updateAt]
  simp only [renamePath, h1, h2]
  cases lookup sub q1 with
  | none => simp [Except.map]
  | some n =>
    cases hl2 : lookup sub q2 with
    | none => simp [hput]
    | some tgt =>
      cases tgt with
      | file tm tc =>
        cases hn : n.isDir <;> simp [hn, hput, Except.map]
      | dir tm tcs =>
        cases tcs with
        | nil => cases hn : n.isDir <;> simp [hn, hput, Except.map]
        | cons thd ttl => simp [Except.map]

/-! ## Operation-level lemmas -/

theorem mkdirAll_existing (path : Path) (fs : FSNode) (m : Nat)
    (cs : List (String × FSNode)) (perm : Nat)
    (h : lookup fs path = some (.dir m cs)) : mkdirAll fs path perm = .ok fs := by
  induction path generalizing fs with
  | nil =>
    simp only [lookup, Option.some.injEq] at h
    subst h
    rfl
  | cons s p ih =>
    cases fs with
    | file fm fc => simp [lookup] at h
    | dir m2 cs2 =>
      simp only [lookup] at h
      cases hc : findChild cs2 s with
      | none => simp [hc] at h
      | some c =>
        simp only [hc] at h
        simp [mkdirAll, hc, ih c h, setChild_self_of_found cs2 s c hc]

theorem mkdirAll_lookup (path : Path) (fs fs2 : FSNode) (perm : Nat)
    (h : mkdirAll fs path perm = .ok fs2) :
    ∃ m cs, lookup fs2 path = some (.dir m cs) := by
  induction path generalizing fs fs2 with
  | nil =>
    cases fs with
    | file fm fc => simp [mkdirAll] at h
    | dir m cs =>
      simp only [mkdirAll, Except.ok.injEq] at h
      subst h
      exact ⟨m, cs, rfl⟩
  | cons s p ih =>
    cases fs with
    | file fm fc => simp [mkdirAll] at h
    | dir m cs =>
      simp only [mkdirAll] at h
      cases hc : findChild cs s with
      | some c =>
        simp only [hc] at h
        cases hrec : mkdirAll c p perm with
        | error e => simp [hrec] at h
        | ok c2 =>
          simp only [hrec, Except.ok.injEq] at h
          subst h
          obtain ⟨m2, cs2, hl⟩ := ih c c2 hrec
          exact ⟨m2, cs2, by simp [lookup, findChild_setChild_self, hl]⟩
      | none =>
        simp only [hc] at h
        cases hrec : mkdirAll (.dir perm []) p perm with
        | error e => simp [hrec] at h
        | ok c2 =>
          simp only [hrec, Except.ok.injEq] at h
          subst h
          obtain ⟨m2, cs2, hl⟩ := ih _ c2 hrec
          exact ⟨m2, cs2, by simp [lookup, findChild_setChild_self, hl]⟩

theorem mkdirAll_lookup_new (path : Path) (fs fs2 : FSNode) (perm : Nat)
    (habs : lookup fs path = none) (h : mkdirAll fs path perm = .ok fs2) :
    lookup fs2 path = some (.dir perm []) := by
  induction path generalizing fs fs2 with
  | nil => simp [lookup] at habs
  | cons s p ih =>
    cases fs with
    | file fm fc => simp [mkdirAll] at h
    | dir m cs =>
      simp only [mkdirAll] at h
      simp only [lookup] at habs
      cases hc : findChild cs s with
      | some c =>
        simp only [hc] at h habs
        cases hrec : mkdirAll c p perm with
        | error e => simp [hrec] at h
        | ok c2 =>
          simp only [hrec, Except.ok.injEq] at h
          subst h
          simp [lookup, findChild_setChild_self, ih c c2 habs hrec]
      | none =>
        simp only [hc] at h
        cases hrec : mkdirAll (.dir perm []) p perm with
        | error e => simp [hrec] at h
        | ok c2 =>
          simp only [hrec, Except.ok.injEq] at h
          subst h
          cases p with
          | nil =>
            simp only [mkdirAll, Except.ok.injEq] at hrec
            subst hrec
            simp [lookup, findChild_setChild_self]
          | cons x xs =>
            have habs2 : lookup (FSNode.dir perm []) (x :: xs) = none := by
              simp [lookup, findChild]
            simp [lookup, findChild_setChild_self, ih _ c2 habs2 hrec]

theorem mkdirAll_frame_files (path : Path) (fs fs2 : FSNode) (perm : Nat)
    (h : mkdirAll fs path perm = .ok fs2) :
    ∀ q fm fc, lookup fs q = some (.file fm fc) → lookup fs2 q = some (.file fm fc) := by
  induction path generalizing fs fs2 with
  | nil =>
    cases fs with
    | file m c => simp [mkdirAll] at h
    | dir m cs =>
      simp only [mkdirAll, Except.ok.injEq] at h
      subst h
      exact fun q fm fc hq => hq
  | cons s p ih =>
    intro q fm fc hq
    cases fs with
    | file m c => simp [mkdirAll] at h
    | dir m cs =>
      simp only [mkdirAll] at h
      cases q with
      | nil => simp [lookup] at hq
      | cons t qs =>
        simp only [lookup] at hq
        cases hc : findChild cs s with
        | some c =>
          simp only [hc] at h
          cases hrec : mkdirAll c p perm with
          | error e => simp [hrec] at h
          | ok c2 =>
            simp only [hrec, Except.ok.injEq] at h
            subst h
            by_cases hts : t = s
            · subst hts
              simp only [hc] at hq
              simp [lookup, findChild_setChild_self, ih c c2 hrec qs fm fc hq]
            · simp only [lookup, findChild_setChild_ne cs s t _ hts]
              simpa [lookup] using hq
        | none =>
          simp only [hc] at h
          cases hrec : mkdirAll (.dir perm []) p perm with
          | error e => simp [hrec] at h
          | ok c2 =>
            simp only [hrec, Except.ok.injEq] at h
            subst h
            by_cases hts : t = s
            · subst hts
              simp [hc] at hq
            · simp only [lookup, findChild_setChild_ne cs s t _ hts]
              simpa [lookup] using hq

theorem create_lookup (path : Path) (fs fs2 : FSNode) (perm : Nat) (content : List Nat)
    (h : createTruncWrite fs path perm content = .ok fs2) :
    ∃ m, lookup fs2 path = some (.file m content) := by
  induction path generalizing fs fs2 with
  | nil => simp [createTruncWrite] at h
  | cons s p ih =>
    cases fs with
    | file m c => simp [createTruncWrite] at h
    | dir m cs =>
      cases p with
      | nil =>
        simp only [createTruncWrite] at h
        cases hc : findChild cs s with
        | some c =>
          cases c with
          | dir m2 cs2 => simp [hc] at h
          | file fm fc =>
            simp only [hc, Except.ok.injEq] at h
            subst h
            exact ⟨fm, by simp [lookup, findChild_setChild_self]⟩
        | none =>
          simp only [hc, Except.ok.injEq] at h
          subst h
          exact ⟨perm, by simp [lookup, findChild_setChild_self]⟩
      | cons x xs =>
        simp only [createTruncWrite] at h
        cases hc : findChild cs s with
        | some c =>
          simp only [hc] at h
          cases hrec : createTruncWrite c (x :: xs) perm content with
          | error e => simp [hrec] at h
          | ok c2 =>
            simp only [hrec, Except.ok.injEq] at h
            subst h
            obtain ⟨m2, hl⟩ := ih c c2 hrec
            exact ⟨m2, by simp [lookup, findChild_setChild_self, hl]⟩
        | none => simp [hc] at h

theorem create_on_existing_file (path : Path) (fs : FSNode) (fm : Nat)
    (oldc : List Nat) (perm : Nat) (content : List Nat)
    (h : lookup fs path = some (.file fm oldc)) (hne : path ≠ []) :
    ∃ fs2, createTruncWrite fs path perm content = .ok fs2 ∧
      lookup fs2 path = some (.file fm content) := by
  induction path generalizing fs with
  | nil => exact absurd rfl hne
  | cons s p ih =>
    cases fs with
    | file m c => simp [lookup] at h
    | dir m cs =>
      simp only [lookup] at h
      cases hc : findChild cs s with
      | none => simp [hc] at h
      | some c =>
        simp only [hc] at h
        cases p with
        | nil =>
          simp only [lookup, Option.some.injEq] at h
          subst h
          refine ⟨.dir m (setChild cs s (.file fm content)), ?_, ?_⟩
          · simp [createTruncWrite, hc]
          · simp [lookup, findChild_setChild_self]
        | cons x xs =>
          obtain ⟨c2, hok, hl⟩ := ih c h (by simp)
          refine ⟨.dir m (setChild cs s c2), ?_, ?_⟩
          · simp [createTruncWrite, hc, hok]
          · simp [lookup, findChild_setChild_self, hl]

theorem create_frame_files (path : Path) (fs fs2 : FSNode) (perm : Nat)
    (content : List Nat) (h : createTruncWrite fs path perm content = .ok fs2) :
    ∀ q fm fc, q ≠ path → lookup fs q = some (.file fm fc) →
      lookup fs2 q = some (.file fm fc) := by
  induction path generalizing fs fs2 with
  | nil => simp [createTruncWrite] at h
  | cons s p ih =>
    intro q fm fc hqne hq
    cases fs with
    | file m c => simp [createTruncWrite] at h
    | dir m cs =>
      cases q with
      | nil => simp [lookup] at hq
      | cons t qs =>
        simp only [lookup] at hq
        cases p with
        | nil =>
          simp only [createTruncWrite] at h
          cases hc : findChild cs s with
          | some c =>
            cases c with
            | dir m2 cs2 => simp [hc] at h
            | file f0 c0 =>
              simp only [hc, Except.ok.injEq] at h
              subst h
              by_cases hts : t = s
              · subst hts
                simp only [hc] at hq
                cases qs with
                | nil =>
                  exact absurd rfl hqne
                | cons y ys => simp [lookup] at hq
              · simp only [lookup, findChild_setChild_ne cs s t _ hts]
                simpa [lookup] using hq
          | none =>
            simp only [hc, Except.ok.injEq] at h
            subst h
            by_cases hts : t = s
            · subst hts
              simp [hc] at hq
            · simp only [lookup, findChild_setChild_ne cs s t _ hts]
              simpa [lookup] using hq
        | cons x xs =>
          simp only [createTruncWrite] at h
          cases hc : findChild cs s with
          | some c =>
            simp only [hc] at h
            cases hrec : createTruncWrite c (x :: xs) perm content with
            | error e => simp [hrec] at h
            | ok c2 =>
              simp only [hrec, Except.ok.injEq] at h
              subst h
              by_cases hts : t = s
              · subst hts
                simp only [hc] at hq
                have hqsne : qs ≠ x :: xs := by
                  intro hcontra
                  exact hqne (by rw [hcontra])
                simp [lookup, findChild_setChild_self, ih c c2 hrec qs fm fc hqsne hq]
              · simp only [lookup, findChild_setChild_ne cs s t _ hts]
                simpa [lookup] using hq
          | none => simp [hc] at h

theorem create_missing_parent (path : Path) (fs : FSNode) (perm : Nat)
    (content : List Nat) (h : lookup fs path.dropLast = none) :
    ∃ e, createTruncWrite fs path perm content = .error e := by
  induction path generalizing fs with
  | nil => simp [lookup] at h
  | cons s p ih =>
    cases fs with
    | file m c => exact ⟨.notDir, rfl⟩
    | dir m cs =>
      cases p with
      | nil => simp [lookup] at h
      | cons x xs =>
        have hdl : (s :: x :: xs).dropLast = s :: (x :: xs).dropLast := by
          simp
        rw [hdl] at h
        simp only [lookup] at h
        cases hc : findChild cs s with
        | none => exact ⟨.notExist, by simp [createTruncWrite, hc]⟩
        | some c =>
          simp only [hc] at h
          obtain ⟨e, he⟩ := ih c h
          exact ⟨e, by simp [createTruncWrite, hc, he]⟩

/-! ## Extraction-loop frame lemmas -/

/-- The destination paths of the regular-file entries of a tar archive
(specification-side helper: these are the only paths whose file content
extraction may write). -/
def tarRegPaths (archive : List TarHeader) (extractDir : Path) : List Path :=
  archive.filterMap fun h =>
    match h.typeflag with
    | .reg => some (resolveSegs extractDir h.name)
    | _ => none

/-- The destination paths of the file (non-directory) members of a zip
archive. -/
def zipFilePaths (archive : List ZipEntry) (extractDir : Path) : List Path :=
  archive.filterMap fun f =>
    if f.isDir then none else some (resolveSegs extractDir f.name)

theorem extractTarEntries_frame_files (archive : List TarHeader) (extractDir : Path)
    (fs : FSNode) :
    ∀ q fm fc, lookup fs q = some (.file fm fc) → q ∉ tarRegPaths archive extractDir →
      lookup (extractTarEntries archive extractDir fs).1 q = some (.file fm fc) := by
  induction archive generalizing fs with
  | nil => exact fun q fm fc hq _ => hq
  | cons h rest ih =>
    intro q fm fc hq hnm
    cases htf : h.typeflag with
    | dir =>
      have hnm2 : q ∉ tarRegPaths rest extractDir := by
        simpa [tarRegPaths, htf] using hnm
      simp only [extractTarEntries, htf]
      cases hmk : mkdirAll fs (resolveSegs extractDir h.name) 0o755 with
      | ok fs1 =>
        exact ih fs1 q fm fc
          (mkdirAll_frame_files _ fs fs1 _ hmk q fm fc hq) hnm2
      | error e => exact ih fs q fm fc hq hnm2
    | reg =>
      have hsplit : q ≠ resolveSegs extractDir h.name ∧ q ∉ tarRegPaths rest extractDir := by
        constructor
        · intro hcontra
          exact hnm (by simp [tarRegPaths, htf, hcontra])
        · intro hcontra
          refine hnm ?_
          simp only [tarRegPaths, htf, List.filterMap_cons]
          exact List.mem_cons_of_mem _ (by simpa [tarRegPaths] using hcontra)
      simp only [extractTarEntries, htf]
      cases hcr : createTruncWrite fs (resolveSegs extractDir h.name) 0o666 h.content with
      | ok fs1 =>
        exact ih fs1 q fm fc
          (create_frame_files _ fs fs1 _ _ hcr q fm fc hsplit.1 hq) hsplit.2
      | error e => exact hq
    | other =>
      have hnm2 : q ∉ tarRegPaths rest extractDir := by
        simpa [tarRegPaths, htf] using hnm
      simp only [extractTarEntries, htf]
      exact ih fs q fm fc hq hnm2

theorem mkdirAllFdir_frame_files (fdir : Option Path) (fs fs2 : FSNode) (perm : Nat)
    (h : mkdirAllFdir fs fdir perm = .ok fs2) :
    ∀ q fm fc, lookup fs q = some (.file fm fc) → lookup fs2 q = some (.file fm fc) := by
  cases fdir with
  | none => simp [mkdirAllFdir] at h
  | some path => exact mkdirAll_frame_files path fs fs2 perm h

theorem extractZipEntries_frame_files (archive : List ZipEntry) (extractDir : Path)
    (fs : FSNode) :
    ∀ q fm fc, lookup fs q = some (.file fm fc) → q ∉ zipFilePaths archive extractDir →
      lookup (extractZipEntries archive extractDir fs).1 q = some (.file fm fc) := by
  induction archive generalizing fs with
  | nil => exact fun q fm fc hq _ => hq
  | cons f rest ih =>
    intro q fm fc hq hnm
    cases hdir : f.isDir with
    | true =>
      have hnm2 : q ∉ zipFilePaths rest extractDir := by
        simpa [zipFilePaths, hdir] using hnm
      have hstep : extractZipEntries (f :: rest) extractDir fs =
          match mkdirAll fs (resolveSegs extractDir f.name) f.mode with
          | .ok fs1 => extractZipEntries rest extractDir fs1
          | .error e => (fs, some e) := by
        simp [extractZipEntries, hdir]
      rw [hstep]
      cases hmk : mkdirAll fs (resolveSegs extractDir f.name) f.mode with
      | ok fs1 =>
        exact ih fs1 q fm fc
          (mkdirAll_frame_files _ fs fs1 _ hmk q fm fc hq) hnm2
      | error e => exact hq
    | false =>
      have hsplit : q ≠ resolveSegs extractDir f.name ∧ q ∉ zipFilePaths rest extractDir := by
        constructor
        · intro hcontra
          exact hnm (by simp [zipFilePaths, hdir, hcontra])
        · intro hcontra
          refine hnm ?_
          simp only [zipFilePaths, List.filterMap_cons, hdir, Bool.false_eq_true, if_false]
          exact List.mem_cons_of_mem _ (by simpa [zipFilePaths] using hcontra)
      have hstep : extractZipEntries (f :: rest) extractDir fs =
          match mkdirAllFdir fs (zipFdir (resolveSegs extractDir f.name)) f.mode with
          | .error e => (fs, some e)
          | .ok fs1 =>
            match createTruncWrite fs1 (resolveSegs extractDir f.name) f.mode f.content with
            | .error e => (fs1, some e)
            | .ok fs2 => extractZipEntries rest extractDir fs2 := by
        simp [extractZipEntries, hdir]
      rw [hstep]
      cases hmk : mkdirAllFdir fs (zipFdir (resolveSegs extractDir f.name)) f.mode with
      | error e => exact hq
      | ok fs1 =>
        have hq1 := mkdirAllFdir_frame_files _ fs fs1 _ hmk q fm fc hq
        dsimp only
        cases hcr : createTruncWrite fs1 (resolveSegs extractDir f.name) f.mode f.content with
        | error e => exact hq1
        | ok fs2 =>
          exact ih fs2 q fm fc
            (create_frame_files _ fs1 fs2 _ _ hcr q fm fc hsplit.1 hq1) hsplit.2

/-! ## Concrete filesystem fixtures -/

/-- A root directory holding one empty destination directory `dest`. -/
def demoRoot : FSNode := .dir 0o755 [("dest", .dir 0o755 [])]

/-- A root whose `dest` directory already holds two files `a` and `b`. -/
def twoChildRoot : FSNode :=
  .dir 0o755 [("dest", .dir 0o755 [("a", .file 0o644 [1]), ("b", .file 0o644 [2])])]

/-- A root holding a directory `a` that contains an empty destination
directory `dest` (a destination root two levels below the filesystem
root). -/
def deepRoot : FSNode := .dir 0o755 [("a", .dir 0o755 [("dest", .dir 0o755 [])])]

/-! ## Claim theorems -/

/-- Claim C1.  The spec requires every archive entry whose path resolves
outside the destination root to be rejected with a `PathTraversalError`,
fatally and without creating a file outside the root.  The code has no such
check: a tar entry named `../evil` extracted into `/dest` creates `/evil`
and `ExtractTarGz` returns nil; a zip member named `../evil2` extracted
into `/a/dest` creates `/a/evil2` and `Unzip` returns nil.  (The zip escape
is shown one directory below the filesystem root because for a path landing
directly under the root `Unzip` computes `fdir = ""` and happens to fail at
`os.MkdirAll("")` — still not a `PathTraversalError` — before writing.) -/
theorem c1_path_traversal_unchecked :
    (extractTarGz [⟨.reg, ["..", "evil"], 0o644, [42]⟩] ["dest"] demoRoot).2 = none ∧
    lookup (extractTarGz [⟨.reg, ["..", "evil"], 0o644, [42]⟩] ["dest"] demoRoot).1 ["evil"]
      = some (.file 0o666 [42]) ∧
    (unzip [⟨["..", "evil2"], false, 0o644, [7]⟩] ["a", "dest"] deepRoot).2 = none ∧
    lookup (unzip [⟨["..", "evil2"], false, 0o644, [7]⟩] ["a", "dest"] deepRoot).1
      ["a", "evil2"] = some (.file 0o644 [7]) :=
  ⟨rfl, rfl, rfl, rfl⟩

/-- Claim C6.  When the destination root has two or more immediate children,
or a single child that is not a directory, `moveSingleDirToParent` performs
no filesystem operation and returns nil: the state is returned unchanged. -/
theorem c6_normalization_noop (extractDir : Path) (fs : FSNode)
    (files : List (String × FSNode))
    (hrd : readDir fs extractDir = .ok files)
    (h : 2 ≤ files.length ∨ ∃ nm fm fc, files = [(nm, FSNode.file fm fc)]) :
    moveSingleDirToParent extractDir fs = (fs, none) := by
  rcases files with _ | ⟨⟨nm, node⟩, tl⟩
  · simp [moveSingleDirToParent, hrd]
  · rcases tl with _ | ⟨hd2, tl2⟩
    · cases node with
      | dir m cs =>
        rcases h with h2 | ⟨nm2, fm2, fc2, heq⟩
        · simp at h2
        · simp at heq
      | file fm fc => simp [moveSingleDirToParent, hrd]
    · simp [moveSingleDirToParent, hrd]

/-- Witness for C6 at a destination root with the two files `a` and `b`. -/
theorem c6_normalization_noop_witness :
    moveSingleDirToParent ["dest"] twoChildRoot = (twoChildRoot, none) :=
  c6_normalization_noop ["dest"] twoChildRoot
    [("a", .file 0o644 [1]), ("b", .file 0o644 [2])] rfl (Or.inl (by simp))

/-- Claim C9.  `FileExists` returns a boolean only when `os.Stat` succeeds
(true iff the path is not a directory) or fails with a not-exist error
(false); any other `os.Stat` failure leaves `stat` nil and the unguarded
`stat.IsDir()` call crashes, modelled by `none`. -/
theorem c9_fileExists_crash_on_other_errors :
    (∀ fs path n, lookup fs path = some n →
      fileExists (osStat fs path) = some (!n.isDir)) ∧
    (∀ fs path, lookup fs path = none → fileExists (osStat fs path) = some false) ∧
    (∀ e, e ≠ StatErr.notExist → fileExists (.error e) = none) := by
  refine ⟨?_, ?_, ?_⟩
  · intro fs path n h
    simp [osStat, h, fileExists]
  · intro fs path h
    simp [osStat, h, fileExists]
  · intro e he
    cases e with
    | notExist => exact absurd rfl he
    | permission => rfl
    | other => rfl

/-- Witness for C9: a permission failure crashes; an existing regular file
yields true; a missing path yields false. -/
theorem c9_fileExists_crash_on_other_errors_witness :
    fileExists (.error .permission) = none ∧
    fileExists (osStat twoChildRoot ["dest", "a"]) = some true ∧
    fileExists (osStat twoChildRoot ["nope"]) = some false :=
  ⟨c9_fileExists_crash_on_other_errors.2.2 .permission (by simp),
   c9_fileExists_crash_on_other_errors.1 twoChildRoot ["dest", "a"] (.file 0o644 [1]) rfl,
   c9_fileExists_crash_on_other_errors.2.1 twoChildRoot ["nope"] rfl⟩

theorem hasElementLoop_found (xs : List GoBase) (e : GoBase) (hm : e ∈ xs) :
    ∀ i, ∃ k, hasElementLoop xs e i = (true, i + k) ∧ xs.get? k = some e ∧
      ∀ j < k, xs.get? j ≠ some e := by
  induction xs with
  | nil => simp at hm
  | cons x xs ih =>
    intro i
    by_cases hx : x = e
    · subst hx
      refine ⟨0, ?_, by simp, by simp⟩
      simp [hasElementLoop]
    · have hm2 : e ∈ xs := by
        cases List.mem_cons.mp hm with
        | inl h2 => exact absurd h2.symm hx
        | inr h2 => exact h2
      obtain ⟨k, h1, h2, h3⟩ := ih hm2 (i + 1)
      refine ⟨k + 1, ?_, by simpa using h2, ?_⟩
      · have : i + 1 + k = i + (k + 1) := by omega
        simp [hasElementLoop, hx, h1, this]
      · intro j hj
        cases j with
        | zero =>
          simp only [List.get?]
          intro hcontra
          exact hx (by simpa using hcontra)
        | succ j2 =>
          have := h3 j2 (by omega)
          simpa using this

theorem hasElementLoop_not_found (xs : List GoBase) (e : GoBase) (hm : e ∉ xs) :
    ∀ i, hasElementLoop xs e i = (false, 0) := by
  induction xs with
  | nil => intro i; rfl
  | cons x xs ih =>
    intro i
    have hx : x ≠ e := fun h => hm (by simp [h])
    have hm2 : e ∉ xs := fun h => hm (List.mem_cons_of_mem _ h)
    simp [hasElementLoop, hx, ih hm2]

/-- Claim C10.  `HasElement(s, elem)` on a slice returns `(true, i)` with `i`
the smallest index holding `elem` when it occurs, `(false, 0)` when it does
not occur, and `(false, 0)` on any non-slice argument. -/
theorem c10_hasElement_first_index :
    (∀ xs e, e ∈ xs → ∃ i, hasElement (.slice xs) e = (true, i) ∧
      xs.get? i = some e ∧ ∀ j < i, xs.get? j ≠ some e) ∧
    (∀ xs e, e ∉ xs → hasElement (.slice xs) e = (false, 0)) ∧
    (∀ b e, hasElement (.base b) e = (false, 0)) := by
  refine ⟨?_, ?_, ?_⟩
  · intro xs e hm
    obtain ⟨k, h1, h2, h3⟩ := hasElementLoop_found xs e hm 0
    exact ⟨k, by simpa [hasElement] using h1, h2, h3⟩
  · intro xs e hm
    simpa [hasElement] using hasElementLoop_not_found xs e hm 0
  · intro b e
    rfl

/-- Witness for C10 on the slice `["a", "b", "b"]`, a missing element, and a
non-slice argument. -/
theorem c10_hasElement_first_index_witness :
    (∃ i, hasElement (.slice [.str "a", .str "b", .str "b"]) (.str "b") = (true, i) ∧
      [GoBase.str "a", .str "b", .str "b"].get? i = some (.str "b") ∧
      ∀ j < i, [GoBase.str "a", .str "b", .str "b"].get? j ≠ some (.str "b")) ∧
    hasElement (.slice [.str "a"]) (.str "b") = (false, 0) ∧
    hasElement (.base (.str "a")) (.str "b") = (false, 0) :=
  ⟨c10_hasElement_first_index.1 [.str "a", .str "b", .str "b"] (.str "b") (by simp),
   c10_hasElement_first_index.2.1 [.str "a"] (.str "b") (by simp),
   c10_hasElement_first_index.2.2 (.str "a") (.str "b")⟩

/-- A root whose `dest` directory holds a regular file named `x`. -/
def fileInWayRoot : FSNode := .dir 0o755 [("dest", .dir 0o755 [("x", .file 0o644 [0])])]

/-- A root whose `dest` directory holds one file `keep`. -/
def keepRoot : FSNode := .dir 0o755 [("dest", .dir 0o755 [("keep", .file 0o644 [3])])]

/-- A root whose `dest` directory holds one empty subdirectory `sub`. -/
def subDirRoot : FSNode := .dir 0o755 [("dest", .dir 0o755 [("sub", .dir 0o755 [])])]

/-- Claim C3, counterexample.  The claim says both extractors create missing
ancestor directories before writing a regular-file entry.  `ExtractTarGz`
does not: it calls `os.Create` directly, so a tar archive holding the single
file entry `a/b` (with no directory entry for `a`) fails with a not-exist
error against an empty destination root, creates nothing, and aborts. -/
theorem c3_counterexample_no_ancestor_creation :
    extractTarGz [⟨.reg, ["a", "b"], 0o644, [1]⟩] ["dest"] demoRoot
      = (demoRoot, some .notExist) ∧
    lookup demoRoot ["dest", "a"] = none :=
  ⟨rfl, rfl⟩

/-- Claim C3, amended.  A successful create/truncate stores the entry's
whole content at the target path; `Unzip` creates missing ancestors of a
file member before opening it; but `ExtractTarGz` creates no ancestors for
a regular-file entry — when the parent directory does not exist the entry
fails with an error, the loop stops, and the filesystem is unchanged. -/
theorem c3_regular_file_materialization :
    (∀ fs path perm content fs2, createTruncWrite fs path perm content = .ok fs2 →
      ∃ m, lookup fs2 path = some (.file m content)) ∧
    (∀ fs fdir perm fs2, mkdirAll fs fdir perm = .ok fs2 →
      ∃ m cs, lookup fs2 fdir = some (.dir m cs)) ∧
    (∀ extractDir nm tm content rest fs,
      lookup fs (resolveSegs extractDir nm).dropLast = none →
      ∃ e, extractTarEntries (⟨.reg, nm, tm, content⟩ :: rest) extractDir fs
        = (fs, some e)) := by
  refine ⟨?_, ?_, ?_⟩
  · intro fs path perm content fs2 h
    exact create_lookup path fs fs2 perm content h
  · intro fs fdir perm fs2 h
    exact mkdirAll_lookup fdir fs fs2 perm h
  · intro extractDir nm tm content rest fs habs
    obtain ⟨e, he⟩ := create_missing_parent (resolveSegs extractDir nm) fs 0o666 content habs
    exact ⟨e, by simp [extractTarEntries, he]⟩

/-- Witness for the amended C3 at concrete inputs. -/
theorem c3_regular_file_materialization_witness :
    (∃ m, lookup (.dir 0o755 [("dest", .dir 0o755 [("f", .file 0o666 [9])])])
      ["dest", "f"] = some (.file m [9])) ∧
    (∃ m cs, lookup (.dir 0o755 [("dest", .dir 0o755 [("a", .dir 0o700
      [("b", .dir 0o700 [])])])]) ["dest", "a", "b"] = some (.dir m cs)) ∧
    (∃ e, extractTarEntries [⟨.reg, ["a", "b"], 0o644, [1]⟩] ["dest"] demoRoot
      = (demoRoot, some e)) :=
  ⟨c3_regular_file_materialization.1 demoRoot ["dest", "f"] 0o666 [9] _ rfl,
   c3_regular_file_materialization.2.1 demoRoot ["dest", "a", "b"] 0o700 _ rfl,
   c3_regular_file_materialization.2.2 ["dest"] ["a", "b"] 0o644 [1] [] demoRoot rfl⟩

/-- Claim C4, counterexample.  The claim says every filesystem error while
materializing an entry is terminal.  In `ExtractTarGz` a `MkdirAll` failure
on a directory entry is only printed: with a regular file already sitting at
`dest/x`, the directory entry `x` fails, yet extraction continues, writes
the next entry `y`, and the call returns nil. -/
theorem c4_counterexample_mkdir_error_not_terminal :
    mkdirAll fileInWayRoot ["dest", "x"] 0o755 = .error .notDir ∧
    (extractTarGz [⟨.dir, ["x"], 0o755, []⟩, ⟨.reg, ["y"], 0o644, [5]⟩]
      ["dest"] fileInWayRoot).2 = none ∧
    lookup (extractTarGz [⟨.dir, ["x"], 0o755, []⟩, ⟨.reg, ["y"], 0o644, [5]⟩]
      ["dest"] fileInWayRoot).1 ["dest", "y"] = some (.file 0o666 [5]) :=
  ⟨rfl, rfl, rfl⟩

/-- Claim C4, amended.  Filesystem errors are terminal — the loop stops at
the failing entry, the error is returned, later entries are not processed
and nothing is retried — with one exception: a `MkdirAll` failure on a tar
directory entry is only logged and extraction continues with the remaining
entries.  The zip conjuncts are anchored on the `MkdirAll(fdir, ...)` call
`Unzip` actually makes (including its empty-string `fdir` corner). -/
theorem c4_filesystem_error_terminality :
    (∀ extractDir nm md content rest fs e,
      mkdirAll fs (resolveSegs extractDir nm) 0o755 = .error e →
      extractTarEntries (⟨.dir, nm, md, content⟩ :: rest) extractDir fs
        = extractTarEntries rest extractDir fs) ∧
    (∀ extractDir nm md content rest fs e,
      createTruncWrite fs (resolveSegs extractDir nm) 0o666 content = .error e →
      extractTarEntries (⟨.reg, nm, md, content⟩ :: rest) extractDir fs
        = (fs, some e)) ∧
    (∀ extractDir nm md content rest fs e,
      mkdirAll fs (resolveSegs extractDir nm) md = .error e →
      extractZipEntries (⟨nm, true, md, content⟩ :: rest) extractDir fs
        = (fs, some e)) ∧
    (∀ extractDir nm md content rest fs e,
      mkdirAllFdir fs (zipFdir (resolveSegs extractDir nm)) md = .error e →
      extractZipEntries (⟨nm, false, md, content⟩ :: rest) extractDir fs
        = (fs, some e)) ∧
    (∀ extractDir nm md content rest fs fs1 e,
      mkdirAllFdir fs (zipFdir (resolveSegs extractDir nm)) md = .ok fs1 →
      createTruncWrite fs1 (resolveSegs extractDir nm) md content = .error e →
      extractZipEntries (⟨nm, false, md, content⟩ :: rest) extractDir fs
        = (fs1, some e)) := by
  refine ⟨?_, ?_, ?_, ?_, ?_⟩
  · intro extractDir nm md content rest fs e h
    simp [extractTarEntries, h]
  · intro extractDir nm md content rest fs e h
    simp [extractTarEntries, h]
  · intro extractDir nm md content rest fs e h
    simp [extractZipEntries, h]
  · intro extractDir nm md content rest fs e h
    simp [extractZipEntries, h]
  · intro extractDir nm md content rest fs fs1 e h1 h2
    simp [extractZipEntries, h1, h2]

/-- Witness for the amended C4 at concrete inputs. -/
theorem c4_filesystem_error_terminality_witness :
    extractTarEntries [⟨.dir, ["x"], 0o755, []⟩] ["dest"] fileInWayRoot
      = extractTarEntries [] ["dest"] fileInWayRoot ∧
    extractTarEntries [⟨.reg, ["a", "b"], 0o644, [1]⟩] ["dest"] demoRoot
      = (demoRoot, some .notExist) ∧
    extractZipEntries [⟨["x", "d"], true, 0o755, []⟩] ["dest"] fileInWayRoot
      = (fileInWayRoot, some .notDir) ∧
    extractZipEntries [⟨["x", "f"], false, 0o644, [1]⟩] ["dest"] fileInWayRoot
      = (fileInWayRoot, some .notDir) ∧
    extractZipEntries [⟨["sub"], false, 0o644, [1]⟩] ["dest"] subDirRoot
      = (subDirRoot, some .isDir) :=
  ⟨c4_filesystem_error_terminality.1 ["dest"] ["x"] 0o755 [] [] fileInWayRoot .notDir rfl,
   c4_filesystem_error_terminality.2.1 ["dest"] ["a", "b"] 0o644 [1] [] demoRoot .notExist rfl,
   c4_filesystem_error_terminality.2.2.1 ["dest"] ["x", "d"] 0o755 [] [] fileInWayRoot .notDir rfl,
   c4_filesystem_error_terminality.2.2.2.1 ["dest"] ["x", "f"] 0o644 [1] [] fileInWayRoot .notDir rfl,
   c4_filesystem_error_terminality.2.2.2.2 ["dest"] ["sub"] 0o644 [1] [] subDirRoot subDirRoot
     .isDir rfl rfl⟩

/-- Claim C5, counterexample.  The claim says a successful extraction
returns a result carrying the destination path and the counts of files and
directories written.  Both extractors return only an `error` value: two
archives producing different counts (one file and no directory, versus two
files and one directory) yield the identical return value nil, so the
returned value carries no counts and no path. -/
theorem c5_counterexample_no_counts :
    (extractTarGz [⟨.reg, ["f1"], 0o644, [1]⟩] ["dest"] demoRoot).2 = none ∧
    (extractTarGz [⟨.dir, ["d1"], 0o755, []⟩, ⟨.reg, ["f1"], 0o644, [1]⟩,
      ⟨.reg, ["f2"], 0o644, [2]⟩] ["dest"] demoRoot).2 = none ∧
    (extractTarGz [⟨.reg, ["f1"], 0o644, [1]⟩] ["dest"] demoRoot).2
      = (extractTarGz [⟨.dir, ["d1"], 0o755, []⟩, ⟨.reg, ["f1"], 0o644, [1]⟩,
        ⟨.reg, ["f2"], 0o644, [2]⟩] ["dest"] demoRoot).2 :=
  ⟨rfl, rfl, rfl⟩

/-- Claim C5, amended.  The extractors return a bare `error`: when the entry
loop fails, that terminal error is the function's return value; when it
succeeds, the return value is the result of the final normalization step on
the extracted state, and nothing else (no counts, no paths) is reported. -/
theorem c5_result_is_bare_error :
    (∀ archive extractDir fs fs2 e,
      extractTarEntries archive extractDir fs = (fs2, some e) →
      extractTarGz archive extractDir fs = (fs2, some e)) ∧
    (∀ archive extractDir fs fs2,
      extractTarEntries archive extractDir fs = (fs2, none) →
      extractTarGz archive extractDir fs = moveSingleDirToParent extractDir fs2) ∧
    (∀ archive extractDir fs fs2 e,
      extractZipEntries archive extractDir fs = (fs2, some e) →
      unzip archive extractDir fs = (fs2, some e)) ∧
    (∀ archive extractDir fs fs2,
      extractZipEntries archive extractDir fs = (fs2, none) →
      unzip archive extractDir fs = moveSingleDirToParent extractDir fs2) := by
  refine ⟨?_, ?_, ?_, ?_⟩
  · intro archive extractDir fs fs2 e h
    simp [extractTarGz, h]
  · intro archive extractDir fs fs2 h
    simp [extractTarGz, h]
  · intro archive extractDir fs fs2 e h
    simp [unzip, h]
  · intro archive extractDir fs fs2 h
    simp [unzip, h]

/-- Witness for the amended C5 at concrete inputs. -/
theorem c5_result_is_bare_error_witness :
    extractTarGz [⟨.reg, ["a", "b"], 0o644, [1]⟩] ["dest"] demoRoot
      = (demoRoot, some .notExist) ∧
    extractTarGz [] ["dest"] demoRoot = moveSingleDirToParent ["dest"] demoRoot ∧
    unzip [⟨["x", "f"], false, 0o644, [1]⟩] ["dest"] fileInWayRoot
      = (fileInWayRoot, some .notDir) ∧
    unzip [] ["dest"] demoRoot = moveSingleDirToParent ["dest"] demoRoot :=
  ⟨c5_result_is_bare_error.1 [⟨.reg, ["a", "b"], 0o644, [1]⟩] ["dest"] demoRoot demoRoot
     .notExist rfl,
   c5_result_is_bare_error.2.1 [] ["dest"] demoRoot demoRoot rfl,
   c5_result_is_bare_error.2.2.1 [⟨["x", "f"], false, 0o644, [1]⟩] ["dest"] fileInWayRoot
     fileInWayRoot .notDir rfl,
   c5_result_is_bare_error.2.2.2 [] ["dest"] demoRoot demoRoot rfl⟩

/-- Claim C7, counterexample.  The claim says directory entries are created
with the entry's mode, falling back to 0755 only when the format specifies
none.  Tar headers always carry a mode, yet `ExtractTarGz` passes the
constant 0755 to `MkdirAll`: a tar directory entry with mode 0700 is
created with mode 0755. -/
theorem c7_counterexample_tar_mode_ignored :
    (extractTarGz [⟨.dir, ["sub"], 0o700, []⟩] ["dest"] keepRoot).2 = none ∧
    lookup (extractTarGz [⟨.dir, ["sub"], 0o700, []⟩] ["dest"] keepRoot).1
      ["dest", "sub"] = some (.dir 0o755 []) ∧
    (0o755 : Nat) ≠ 0o700 :=
  ⟨rfl, rfl, by decide⟩

/-- Claim C7, amended.  `ExtractTarGz` creates directory entries (and their
missing ancestors) always with mode 0755, ignoring the tar header's mode;
`Unzip` uses the member's mode; after a successful `MkdirAll` the directory
exists; and creating a directory that already exists is not an error and
leaves the filesystem unchanged. -/
theorem c7_directory_creation_modes :
    (∀ extractDir nm md content rest fs fs1,
      lookup fs (resolveSegs extractDir nm) = none →
      mkdirAll fs (resolveSegs extractDir nm) 0o755 = .ok fs1 →
      extractTarEntries (⟨.dir, nm, md, content⟩ :: rest) extractDir fs
          = extractTarEntries rest extractDir fs1 ∧
        lookup fs1 (resolveSegs extractDir nm) = some (.dir 0o755 [])) ∧
    (∀ extractDir nm md content rest fs fs1,
      lookup fs (resolveSegs extractDir nm) = none →
      mkdirAll fs (resolveSegs extractDir nm) md = .ok fs1 →
      extractZipEntries (⟨nm, true, md, content⟩ :: rest) extractDir fs
          = extractZipEntries rest extractDir fs1 ∧
        lookup fs1 (resolveSegs extractDir nm) = some (.dir md [])) ∧
    (∀ fs path perm fs1, mkdirAll fs path perm = .ok fs1 →
      ∃ m cs, lookup fs1 path = some (.dir m cs)) ∧
    (∀ fs path m cs perm, lookup fs path = some (.dir m cs) →
      mkdirAll fs path perm = .ok fs) := by
  refine ⟨?_, ?_, ?_, ?_⟩
  · intro extractDir nm md content rest fs fs1 habs hmk
    exact ⟨by simp [extractTarEntries, hmk],
      mkdirAll_lookup_new _ fs fs1 _ habs hmk⟩
  · intro extractDir nm md content rest fs fs1 habs hmk
    exact ⟨by simp [extractZipEntries, hmk],
      mkdirAll_lookup_new _ fs fs1 _ habs hmk⟩
  · intro fs path perm fs1 h
    exact mkdirAll_lookup path fs fs1 perm h
  · intro fs path m cs perm h
    exact mkdirAll_existing path fs m cs perm h

/-- Witness for the amended C7 at concrete inputs. -/
theorem c7_directory_creation_modes_witness :
    (extractTarEntries [⟨.dir, ["sub"], 0o700, []⟩] ["dest"] keepRoot
        = extractTarEntries []
          ["dest"] (.dir 0o755 [("dest", .dir 0o755 [("keep", .file 0o644 [3]),
            ("sub", .dir 0o755 [])])]) ∧
      lookup (.dir 0o755 [("dest", .dir 0o755 [("keep", .file 0o644 [3]),
        ("sub", .dir 0o755 [])])] : FSNode) ["dest", "sub"] = some (.dir 0o755 [])) ∧
    (∃ m cs, lookup (.dir 0o755 [("dest", .dir 0o755 [("a", .dir 0o700 [])])])
      ["dest", "a"] = some (.dir m cs)) ∧
    mkdirAll subDirRoot ["dest", "sub"] 0o777 = .ok subDirRoot :=
  ⟨c7_directory_creation_modes.1 ["dest"] ["sub"] 0o700 [] [] keepRoot _ rfl rfl,
   c7_directory_creation_modes.2.2.1 demoRoot ["dest", "a"] 0o700 _ rfl,
   c7_directory_creation_modes.2.2.2 subDirRoot ["dest", "sub"] 0o755 [] 0o777 rfl⟩

/-- A root whose `dest` directory holds a single subdirectory `a` with one
pre-existing file `old`. -/
def nestedRoot : FSNode :=
  .dir 0o755 [("dest", .dir 0o755 [("a", .dir 0o755 [("old", .file 0o644 [1])])])]

/-- A root whose `dest` directory holds the files `f` and `g`. -/
def collideRoot : FSNode :=
  .dir 0o755 [("dest", .dir 0o755 [("f", .file 0o600 [9]), ("g", .file 0o644 [8])])]

/-- Claim C8, counterexample.  The claim says re-extraction leaves every
file at a non-colliding path unchanged.  Extraction itself does, but the
unconditional normalization step afterwards does not: re-extracting an
archive holding only `a/new` into a root whose single child is the
directory `a` (holding the pre-existing, non-colliding `a/old`) triggers
the single-directory promotion, after which `dest/a/old` no longer exists —
the file has been relocated to `dest/old`. -/
theorem c8_counterexample_normalization_moves_files :
    (extractTarGz [⟨.reg, ["a", "new"], 0o644, [2]⟩] ["dest"] nestedRoot).2 = none ∧
    lookup nestedRoot ["dest", "a", "old"] = some (.file 0o644 [1]) ∧
    lookup (extractTarGz [⟨.reg, ["a", "new"], 0o644, [2]⟩] ["dest"] nestedRoot).1
      ["dest", "a", "old"] = none ∧
    lookup (extractTarGz [⟨.reg, ["a", "new"], 0o644, [2]⟩] ["dest"] nestedRoot).1
      ["dest", "old"] = some (.file 0o644 [1]) :=
  ⟨rfl, rfl, rfl, rfl⟩

/-- Claim C8, amended.  During the extraction phase the claim holds: a
colliding regular-file entry overwrites the existing file's content without
an error (the file keeps its mode), and every existing file at a path not
written by the archive is left byte-for-byte unchanged, in both extractors —
except that a zip member whose destination path sits directly under the
filesystem root is not overwritten at all: there `Unzip` computes the empty
string for `fdir` and fails at `os.MkdirAll("")` with ENOENT (third
conjunct).  The subsequent unconditional normalization can still relocate
non-colliding files when the destination root is left with a single
directory child. -/
theorem c8_overwrite_and_untouched :
    (∀ extractDir nm tm newc fs fm oldc,
      lookup fs (resolveSegs extractDir nm) = some (.file fm oldc) →
      resolveSegs extractDir nm ≠ [] →
      ∃ fs2, extractTarEntries [⟨.reg, nm, tm, newc⟩] extractDir fs = (fs2, none) ∧
        lookup fs2 (resolveSegs extractDir nm) = some (.file fm newc)) ∧
    (∀ extractDir nm md newc fs fm oldc,
      lookup fs (resolveSegs extractDir nm) = some (.file fm oldc) →
      (resolveSegs extractDir nm).dropLast ≠ [] →
      ∃ fs2, extractZipEntries [⟨nm, false, md, newc⟩] extractDir fs = (fs2, none) ∧
        lookup fs2 (resolveSegs extractDir nm) = some (.file fm newc)) ∧
    (∀ extractDir nm md newc rest fs,
      (resolveSegs extractDir nm).dropLast = [] →
      extractZipEntries (⟨nm, false, md, newc⟩ :: rest) extractDir fs
        = (fs, some .notExist)) ∧
    (∀ archive extractDir fs q fm fc,
      lookup fs q = some (.file fm fc) → q ∉ tarRegPaths archive extractDir →
      lookup (extractTarEntries archive extractDir fs).1 q = some (.file fm fc)) ∧
    (∀ archive extractDir fs q fm fc,
      lookup fs q = some (.file fm fc) → q ∉ zipFilePaths archive extractDir →
      lookup (extractZipEntries archive extractDir fs).1 q = some (.file fm fc)) := by
  refine ⟨?_, ?_, ?_, ?_, ?_⟩
  · intro extractDir nm tm newc fs fm oldc hold hne
    obtain ⟨fs2, hok, hl⟩ :=
      create_on_existing_file (resolveSegs extractDir nm) fs fm oldc 0o666 newc hold hne
    exact ⟨fs2, by simp [extractTarEntries, hok], hl⟩
  · intro extractDir nm md newc fs fm oldc hold hfd
    have hne : resolveSegs extractDir nm ≠ [] := by
      intro hcontra
      exact hfd (by simp [hcontra])
    have hsplit : resolveSegs extractDir nm
        = (resolveSegs extractDir nm).dropLast ++ [(resolveSegs extractDir nm).getLast hne] :=
      (List.dropLast_append_getLast hne).symm
    obtain ⟨parent, hpar, hlast⟩ :
        ∃ parent, lookup fs (resolveSegs extractDir nm).dropLast = some parent ∧
          lookup parent [(resolveSegs extractDir nm).getLast hne]
            = some (.file fm oldc) := by
      have := hold
      rw [hsplit, lookup_append] at this
      cases hpl : lookup fs (resolveSegs extractDir nm).dropLast with
      | none => rw [hpl] at this; simp at this
      | some parent =>
        rw [hpl] at this
        exact ⟨parent, rfl, by simpa using this⟩
    obtain ⟨pm, pcs, hpd⟩ : ∃ pm pcs, parent = FSNode.dir pm pcs := by
      cases parent with
      | file m2 c2 => simp [lookup] at hlast
      | dir pm pcs => exact ⟨pm, pcs, rfl⟩
    have hmkf : mkdirAllFdir fs (zipFdir (resolveSegs extractDir nm)) md = .ok fs := by
      have hzf : zipFdir (resolveSegs extractDir nm)
          = some (resolveSegs extractDir nm).dropLast := by
        simp [zipFdir, hfd]
      rw [hzf]
      exact mkdirAll_existing _ fs pm pcs md (hpd ▸ hpar)
    obtain ⟨fs2, hok, hl⟩ :=
      create_on_existing_file (resolveSegs extractDir nm) fs fm oldc md newc hold hne
    refine ⟨fs2, ?_, hl⟩
    have hstep : extractZipEntries [⟨nm, false, md, newc⟩] extractDir fs =
        match mkdirAllFdir fs (zipFdir (resolveSegs extractDir nm)) md with
        | .error e => (fs, some e)
        | .ok fs1 =>
          match createTruncWrite fs1 (resolveSegs extractDir nm) md newc with
          | .error e => (fs1, some e)
          | .ok fs2 => extractZipEntries [] extractDir fs2 := by
      simp [extractZipEntries]
    rw [hstep, hmkf]
    simp [hok, extractZipEntries]
  · intro extractDir nm md newc rest fs hfd
    have hzf : zipFdir (resolveSegs extractDir nm) = none := by
      simp [zipFdir, hfd]
    simp [extractZipEntries, hzf, mkdirAllFdir]
  · intro archive extractDir fs q fm fc hq hnm
    exact extractTarEntries_frame_files archive extractDir fs q fm fc hq hnm
  · intro archive extractDir fs q fm fc hq hnm
    exact extractZipEntries_frame_files archive extractDir fs q fm fc hq hnm

/-- Witness for the amended C8 at concrete inputs. -/
theorem c8_overwrite_and_untouched_witness :
    (∃ fs2, extractTarEntries [⟨.reg, ["f"], 0o644, [5]⟩] ["dest"] collideRoot
        = (fs2, none) ∧
      lookup fs2 ["dest", "f"] = some (.file 0o600 [5])) ∧
    (∃ fs2, extractZipEntries [⟨["f"], false, 0o640, [6]⟩] ["dest"] collideRoot
        = (fs2, none) ∧
      lookup fs2 ["dest", "f"] = some (.file 0o600 [6])) ∧
    extractZipEntries [⟨["f"], false, 0o640, [6]⟩] [] demoRoot
      = (demoRoot, some .notExist) ∧
    lookup (extractTarEntries [⟨.reg, ["f"], 0o644, [5]⟩] ["dest"] collideRoot).1
      ["dest", "g"] = some (.file 0o644 [8]) ∧
    lookup (extractZipEntries [⟨["f"], false, 0o640, [6]⟩] ["dest"] collideRoot).1
      ["dest", "g"] = some (.file 0o644 [8]) :=
  ⟨c8_overwrite_and_untouched.1 ["dest"] ["f"] 0o644 [5] collideRoot 0o600 [9] rfl
     (by simp [resolveSegs]),
   c8_overwrite_and_untouched.2.1 ["dest"] ["f"] 0o640 [6] collideRoot 0o600 [9] rfl
     (by simp [resolveSegs]),
   c8_overwrite_and_untouched.2.2.1 [] ["f"] 0o640 [6] [] demoRoot
     (by simp [resolveSegs]),
   c8_overwrite_and_untouched.2.2.2.1 [⟨.reg, ["f"], 0o644, [5]⟩] ["dest"] collideRoot
     ["dest", "g"] 0o644 [8] rfl (by simp [tarRegPaths, resolveSegs]),
   c8_overwrite_and_untouched.2.2.2.2 [⟨["f"], false, 0o640, [6]⟩] ["dest"] collideRoot
     ["dest", "g"] 0o644 [8] rfl (by simp [zipFilePaths, resolveSegs])⟩

/-- Claim C2.  When extraction leaves the destination root `p ++ [d]` with
exactly one child and that child is a directory `X`, the normalization that
both `ExtractTarGz` and `Unzip` run unconditionally at their end promotes
`X`: afterwards the destination root holds exactly the contents of `X` (the
wrapper segment is gone), the temporary `parent/tmp` directory has been
removed again, and the step reports success.  The surrounding filesystem is
assumed sane: the parent directory exists with uniquely-named children and
holds no prior `tmp` entry (the fixed temporary location the code uses). -/
theorem c2_single_dir_promoted (p : Path) (d : String) (fs : FSNode)
    (pm m xm : Nat) (pcs xcs : List (String × FSNode)) (c : String)
    (hp : lookup fs p = some (.dir pm pcs))
    (hnd : (pcs.map Prod.fst).Nodup)
    (hd : findChild pcs d = some (.dir m [(c, .dir xm xcs)]))
    (htmp : findChild pcs "tmp" = none) :
    (moveSingleDirToParent (p ++ [d]) fs).2 = none ∧
    lookup (moveSingleDirToParent (p ++ [d]) fs).1 (p ++ [d]) = some (.dir xm xcs) ∧
    lookup (moveSingleDirToParent (p ++ [d]) fs).1 (p ++ ["tmp"]) = none ∧
    (∀ archive fs0, extractTarEntries archive (p ++ [d]) fs0 = (fs, none) →
      extractTarGz archive (p ++ [d]) fs0 = moveSingleDirToParent (p ++ [d]) fs) ∧
    (∀ archive fs0, extractZipEntries archive (p ++ [d]) fs0 = (fs, none) →
      unzip archive (p ++ [d]) fs0 = moveSingleDirToParent (p ++ [d]) fs) := by
  -- abbreviations
  have hdt : d ≠ "tmp" := by
    intro h
    rw [h, htmp] at hd
    exact Option.noConfusion hd
  have htd : ("tmp" : String) ≠ d := Ne.symm hdt
  set X : FSNode := .dir xm xcs with hX
  set D : FSNode := .dir m [(c, X)] with hD
  set sub : FSNode := .dir pm pcs with hsub
  -- step 0: readDir
  have hrd : readDir fs (p ++ [d]) = .ok [(c, X)] := by
    rw [readDir_localize p fs sub [d] hp]
    simp [readDir, lookup, hd]
  -- step 1: MkdirAll(parent/tmp)
  set tmpD : FSNode := .dir 0o755 [] with htmpD
  set pcs1 : List (String × FSNode) := pcs ++ [("tmp", tmpD)] with hpcs1
  set sub1 : FSNode := .dir pm pcs1 with hsub1
  have hmk : mkdirAll fs (p ++ ["tmp"]) 0o755 = .ok (updateAt fs p sub1) := by
    rw [mkdirAll_localize p fs sub ["tmp"] 0o755 hp]
    simp [mkdirAll, htmp, Except.map, hsub1, hpcs1, setChild_of_absent pcs "tmp" tmpD htmp]
  have hlk1 : lookup (updateAt fs p sub1) p = some sub1 :=
    lookup_updateAt_self fs p sub sub1 hp
  -- step 2: Rename(extractDir/child, parent/tmp/extractDirName)
  set Dm0 : FSNode := .dir m [] with hDm0
  set pcs2 : List (String × FSNode) :=
    setChild pcs d Dm0 ++ [("tmp", .dir 0o755 [(d, X)])] with hpcs2
  set sub2 : FSNode := .dir pm pcs2 with hsub2
  have hfc1 : ∀ ds, findChild (pcs ++ ds) d = some D :=
    fun ds => findChild_append_of_found pcs ds d D hd
  have hfctmp : findChild (pcs ++ [("tmp", tmpD)]) "tmp" = some tmpD := by
    rw [findChild_append_of_absent pcs _ "tmp" htmp]
    simp [findChild]
  have hsetn : findChild (setChild pcs d Dm0) "tmp" = none := by
    rw [findChild_setChild_ne pcs d "tmp" Dm0 htd]
    exact htmp
  have hrn1 : renamePath (updateAt fs p sub1) (p ++ [d, c]) (p ++ ["tmp", d])
      = .ok (updateAt fs p sub2) := by
    rw [renamePath_localize p (updateAt fs p sub1) sub1 [d, c] ["tmp", d]
      (by simp) (by simp) hlk1]
    have hlkdc : lookup sub1 [d, c] = some X := by
      simp [lookup, hsub1, hpcs1, hfc1, hD, findChild]
    have hlktd : lookup sub1 ["tmp", d] = none := by
      simp [lookup, hsub1, hpcs1, hfctmp, htmpD, findChild]
    have hdel : delSubtree sub1 [d, c] = .dir pm (setChild pcs1 d (.dir m [])) := by
      simp [delSubtree, hsub1, hpcs1, hfc1, hD, removeChild]
    have hput : putSubtree (.dir pm (setChild pcs1 d (.dir m []))) ["tmp", d] X
        = .ok sub2 := by
      rw [hpcs1, setChild_append_of_found pcs [("tmp", tmpD)] d Dm0 D hd]
      have e1 : findChild (setChild pcs d Dm0 ++ [("tmp", tmpD)]) "tmp" = some tmpD := by
        rw [findChild_append_of_absent _ _ "tmp" hsetn]
        simp [findChild]
      have e2 : setChild (setChild pcs d Dm0 ++ [("tmp", tmpD)]) "tmp"
          (.dir 0o755 [(d, X)]) = setChild pcs d Dm0 ++ [("tmp", .dir 0o755 [(d, X)])] := by
        rw [setChild_append_of_absent _ _ "tmp" _ hsetn]
        simp [setChild]
      simp [putSubtree, e1, htmpD, setChild, e2, hsub2, hpcs2, hDm0]
    simp only [renamePath, hlkdc, hlktd, hdel, hput]
    simp [Except.map, updateAt_updateAt]
  have hlk2 : lookup (updateAt fs p sub2) p = some sub2 :=
    lookup_updateAt_self fs p sub sub2 hp
  -- step 3: Remove(extractDir)
  set pcsR : List (String × FSNode) := removeChild (setChild pcs d Dm0) d with hpcsR
  set sub3 : FSNode := .dir pm (pcsR ++ [("tmp", .dir 0o755 [(d, X)])]) with hsub3
  have hfcset : findChild (setChild pcs d Dm0) d = some Dm0 := findChild_setChild_self pcs d Dm0
  have hrm1 : removePath (updateAt fs p sub2) (p ++ [d]) = .ok (updateAt fs p sub3) := by
    rw [removePath_localize p (updateAt fs p sub2) sub2 [d] (by simp) hlk2]
    have hr : removePath sub2 [d] = .ok sub3 := by
      simp only [removePath, hsub2, hpcs2]
      rw [findChild_append_of_found _ _ d Dm0 hfcset]
      simp only [hDm0]
      rw [removeChild_append_of_found _ _ d Dm0 hfcset]
    rw [hr]
    simp [Except.map, updateAt_updateAt]
  have hlk3 : lookup (updateAt fs p sub3) p = some sub3 :=
    lookup_updateAt_self fs p sub sub3 hp
  -- facts about pcsR
  have hkeys : ((setChild pcs d Dm0).map Prod.fst).Nodup := by
    rw [setChild_keys_of_found pcs d Dm0 D hd]
    exact hnd
  have hRd : findChild pcsR d = none := by
    rw [hpcsR]
    exact findChild_removeChild_self _ d hkeys
  have hRtmp : findChild pcsR "tmp" = none := by
    rw [hpcsR, findChild_removeChild_ne _ d "tmp" htd]
    exact hsetn
  -- step 4: Rename(parent/tmp/extractDirName, extractDir)
  set sub4 : FSNode := .dir pm (pcsR ++ [("tmp", .dir 0o755 []), (d, X)]) with hsub4
  have hrn2 : renamePath (updateAt fs p sub3) (p ++ ["tmp", d]) (p ++ [d])
      = .ok (updateAt fs p sub4) := by
    rw [renamePath_localize p (updateAt fs p sub3) sub3 ["tmp", d] [d]
      (by simp) (by simp) hlk3]
    have hlksrc : lookup sub3 ["tmp", d] = some X := by
      simp only [lookup, hsub3]
      rw [findChild_append_of_absent _ _ "tmp" hRtmp]
      simp [findChild, lookup]
    have hlktgt : lookup sub3 [d] = none := by
      simp only [lookup, hsub3]
      rw [findChild_append_of_absent _ _ d hRd]
      simp [findChild, hdt, htd]
    have hdel : delSubtree sub3 ["tmp", d] = .dir pm (pcsR ++ [("tmp", .dir 0o755 [])]) := by
      have e1 : findChild (pcsR ++ [("tmp", FSNode.dir 0o755 [(d, X)])]) "tmp"
          = some (.dir 0o755 [(d, X)]) := by
        rw [findChild_append_of_absent _ _ "tmp" hRtmp]
        simp [findChild]
      have e2 : setChild (pcsR ++ [("tmp", FSNode.dir 0o755 [(d, X)])]) "tmp"
          (.dir 0o755 []) = pcsR ++ [("tmp", FSNode.dir 0o755 [])] := by
        rw [setChild_append_of_absent _ _ "tmp" _ hRtmp]
        simp [setChild]
      simp [delSubtree, hsub3, e1, e2, removeChild]
    have hput : putSubtree (.dir pm (pcsR ++ [("tmp", .dir 0o755 [])])) [d] X
        = .ok sub4 := by
      have e3 : setChild (pcsR ++ [("tmp", FSNode.dir 0o755 [])]) d X
          = pcsR ++ [("tmp", FSNode.dir 0o755 []), (d, X)] := by
        rw [setChild_append_of_absent _ _ d _ hRd]
        simp [setChild, Ne.symm hdt]
      simp [putSubtree, e3, hsub4]
    simp only [renamePath, hlksrc, hlktgt, hdel, hput]
    simp [Except.map, updateAt_updateAt]
  have hlk4 : lookup (updateAt fs p sub4) p = some sub4 :=
    lookup_updateAt_self fs p sub sub4 hp
  -- step 5: Remove(parent/tmp)
  set sub5 : FSNode := .dir pm (pcsR ++ [(d, X)]) with hsub5
  have hrm2 : removePath (updateAt fs p sub4) (p ++ ["tmp"]) = .ok (updateAt fs p sub5) := by
    rw [removePath_localize p (updateAt fs p sub4) sub4 ["tmp"] (by simp) hlk4]
    have hr : removePath sub4 ["tmp"] = .ok sub5 := by
      have e1 : findChild (pcsR ++ [("tmp", FSNode.dir 0o755 []), (d, X)]) "tmp"
          = some (.dir 0o755 []) := by
        rw [findChild_append_of_absent _ _ "tmp" hRtmp]
        simp [findChild]
      have e2 : removeChild (pcsR ++ [("tmp", FSNode.dir 0o755 []), (d, X)]) "tmp"
          = pcsR ++ [(d, X)] := by
        rw [removeChild_append_of_absent _ _ "tmp" hRtmp]
        simp [removeChild]
      simp [removePath, hsub4, e1, e2, hsub5]
    rw [hr]
    simp [Except.map, updateAt_updateAt]
  -- assemble
  have hdrop : (p ++ [d]).dropLast = p := by simp
  have hlastD : (p ++ [d]).getLastD "" = d := by simp
  have hassoc : (p ++ [d]) ++ [c] = p ++ [d, c] := by simp
  have hfinal : moveSingleDirToParent (p ++ [d]) fs = (updateAt fs p sub5, none) := by
    simp only [moveSingleDirToParent, hrd]
    simp only [hdrop, hlastD, hassoc, hmk, hrn1, hrm1, hrn2, hrm2]
  rw [hfinal]
  have hlk5 : lookup (updateAt fs p sub5) p = some sub5 :=
    lookup_updateAt_self fs p sub sub5 hp
  refine ⟨rfl, ?_, ?_, ?_, ?_⟩
  · rw [lookup_append, hlk5]
    have e : findChild (pcsR ++ [(d, X)]) d = some X := by
      rw [findChild_append_of_absent _ _ d hRd]
      simp [findChild]
    simp [lookup, hsub5, e]
  · rw [lookup_append, hlk5]
    have e : findChild (pcsR ++ [(d, X)]) "tmp" = none := by
      rw [findChild_append_of_absent _ _ "tmp" hRtmp]
      simp [findChild, hdt]
    simp [lookup, hsub5, e]
  · intro archive fs0 h
    simp only [extractTarGz, h]
    exact hfinal
  · intro archive fs0 h
    simp only [unzip, h]
    exact hfinal

/-- Witness for C2: the root directory holds only `dest`, and `dest` holds
only the wrapper directory `a` with one file `old`; normalization hoists
`old` directly under `dest`. -/
theorem c2_single_dir_promoted_witness :
    (moveSingleDirToParent ["dest"] nestedRoot).2 = none ∧
    lookup (moveSingleDirToParent ["dest"] nestedRoot).1 ["dest"]
      = some (.dir 0o755 [("old", .file 0o644 [1])]) ∧
    lookup (moveSingleDirToParent ["dest"] nestedRoot).1 ["tmp"] = none :=
  have h := c2_single_dir_promoted [] "dest" nestedRoot 0o755 0o755 0o755
    [("dest", .dir 0o755 [("a", .dir 0o755 [("old", .file 0o644 [1])])])]
    [("old", .file 0o644 [1])] "a" rfl (by simp) rfl rfl
  ⟨h.1, h.2.1, h.2.2.1⟩

end Setup
